import Mathlib

/-! Verification of the binpacking CSV splitter (the scan / binpack / write
pipeline of `main.go`).

Shallow-embedding conventions:

* A CSV record is modelled as its list of fields (`Record`); the csv
  reader/writer round-trip is abstracted at the field level.  Structurally
  well-formed inputs (uniform field count, at least three fields) are assumed
  where a claim needs the weight field.
* `strconv.ParseInt(s, 10, 64)` is modelled by `parseInt64`, returning the Go
  result value together with an `ok` flag (`false` on a syntax or range
  error).  `scan` discards the flag, exactly as the Go code does
  (`size, _ := strconv.ParseInt(record[2], 10, 64)`).
* Go's `sort.Slice` is documented as not stable, so the sort in `binpack` is
  modelled relationally: `sortSpec metas sorted` holds for every permutation
  `sorted` of `metas` that is non-increasing in `size`; `binpack` takes the
  sorted sequence as an explicit argument.
* The Go map used as a set (`LineNums map[int]struct{}`) is modelled as
  `Finset Int`; `int` / `int64` are modelled as `Int` (no claim exercises
  64-bit overflow).
* Code that can panic or call `os.Exit` is modelled with `Option`:
  `none` means the operation aborts.
* The concurrent write pass (one producing reader, one consuming writer
  goroutine per bucket, FIFO channels) is modelled by the small-step relation
  `CStep`, quantified over arbitrary interleavings.
-/

abbrev Record := List String

/-- Digit accumulator of `strconv.ParseUint` (base 10): `none` on a non-digit
character. -/
def digitsToNat : Nat → List Char → Option Nat
  | acc, [] => some acc
  | acc, c :: cs => if c.isDigit then digitsToNat (acc * 10 + (c.toNat - 48)) cs else none

/-- Model of Go `strconv.ParseInt(s, 10, 64)`: the returned value and an `ok`
flag (`false` on syntax error, where the value is 0, and on range error, where
the value is clamped to the `int64` extremes). -/
def parseInt64 (s : String) : Int × Bool :=
  match s.toList with
  | [] => (0, false)
  | c :: cs =>
    let neg : Bool := c = '-'
    let ds : List Char := if c = '-' ∨ c = '+' then cs else c :: cs
    match ds with
    | [] => (0, false)
    | _ :: _ =>
      match digitsToNat 0 ds with
      | none => (0, false)
      | some v =>
        if neg then
          if 2 ^ 63 < v then (-(2 ^ 63 : Int), false) else (-(v : Int), true)
        else
          if 2 ^ 63 ≤ v then ((2 ^ 63 : Int) - 1, false) else ((v : Int), true)

/-- `LineMeta` from `main.go`: the ordinal (`LineNumber`) and declared size of
one data record. -/
structure LineMeta where
  lineNumber : Int
  size : Int
deriving DecidableEq

/-- `FileBucket` from `main.go`: accumulated total size and the set of
assigned ordinals. -/
structure FileBucket where
  totalSize : Int
  lineNums : Finset Int
deriving DecidableEq

/-- `record[2]`, the weight field. -/
def field2 (r : Record) : String := r.getD 2 ""

/-- The scan loop of `scan`: `line` starts at 1 after the header is skipped,
each data record contributes `LineMeta{LineNumber: line, Size: size}` where
`size` is the `ParseInt` value with the error discarded. -/
def scanAux : Int → List Record → List LineMeta
  | _, [] => []
  | line, r :: rest => ⟨line, (parseInt64 (field2 r)).1⟩ :: scanAux (line + 1) rest

/-- `scan` from `main.go`: panics (`none`) when the header read fails (empty
input), otherwise skips the header and collects the metas. -/
def scan : List Record → Option (List LineMeta)
  | [] => none
  | _ :: data => some (scanAux 1 data)

/-- Contract of `sort.Slice(metas, fun i j => metas[i].Size > metas[j].Size)`:
the result is a permutation of the input whose sizes are non-increasing.  Go
documents `sort.Slice` as not stable, so nothing more is guaranteed. -/
def sortSpec (metas sorted : List LineMeta) : Prop :=
  sorted.Perm metas ∧ sorted.Pairwise (fun a b => b.size ≤ a.size)

/-- The inner minimum-search loop of `binpack`:
`for i := 1; i < bucketsN; i++ { if buckets[i].TotalSize < buckets[minIndex].TotalSize { minIndex = i } }`.
`best` is the current `minIndex`, `bsz` its total size, `i` the index of the
head of `bs` in the original bucket list. -/
def minIndexAux : List FileBucket → Nat → Int → Nat → Nat
  | [], best, _, _ => best
  | b :: rest, best, bsz, i =>
    if b.totalSize < bsz then minIndexAux rest i b.totalSize (i + 1)
    else minIndexAux rest best bsz (i + 1)

/-- `minIndex` computed by one iteration of the assignment loop of `binpack`. -/
def minBucketIndex : List FileBucket → Nat
  | [] => 0
  | b :: rest => minIndexAux rest 0 b.totalSize 1

/-- One iteration of the assignment loop of `binpack`:
`buckets[minIndex].TotalSize += meta.Size; buckets[minIndex].LineNums[meta.LineNumber] = struct{}{}`. -/
def assign (bs : List FileBucket) (m : LineMeta) : List FileBucket :=
  match bs.get? (minBucketIndex bs) with
  | none => bs
  | some b => bs.set (minBucketIndex bs) ⟨b.totalSize + m.size, insert m.lineNumber b.lineNums⟩

/-- `binpack` from `main.go`, taking the already-sorted metas (see `sortSpec`).
`make([]FileBucket, bucketsN)` panics for a negative count (`none`); for
`bucketsN == 0` with a non-empty meta list the first loop iteration indexes
`buckets[0]` of an empty slice and panics (`none`); otherwise the greedy loop
runs. -/
def binpack (sorted : List LineMeta) (bucketsN : Int) : Option (List FileBucket) :=
  if bucketsN < 0 then none
  else if bucketsN = 0 then (if sorted = [] then some [] else none)
  else some (sorted.foldl assign (List.replicate bucketsN.toNat ⟨0, ∅⟩))

/-- The `lineToBucket` map of `write`, built by
`for i, bucket := range buckets { for lineNum := range bucket.LineNums { lineToBucket[lineNum] = i } }`:
ascending bucket order with overwrite, so the last bucket containing an
ordinal wins. -/
def lineToBucketAux (n : Int) : List FileBucket → Nat → Option Nat → Option Nat
  | [], _, acc => acc
  | b :: rest, i, acc =>
    lineToBucketAux n rest (i + 1) (if n ∈ b.lineNums then some i else acc)

/-- Lookup `lineToBucket[n]` as a function of the bucket list. -/
def lineToBucket (buckets : List FileBucket) (n : Int) : Option Nat :=
  lineToBucketAux n buckets 0 none

/-- Append one element to the `b`-th list of a list of lists (a record being
written to output `b`, or enqueued on channel `b`). -/
def appendAt {α : Type} : List (List α) → Nat → α → List (List α)
  | [], _, _ => []
  | f :: rest, 0, r => (f ++ [r]) :: rest
  | f :: rest, k + 1, r => f :: appendAt rest k r

/-- One iteration of the read loop of `write`, sequential view.  State is
(per-bucket output contents, `lineNum`).  At `lineNum == 0` the record (the
header) is first written to every output and `lineNum` becomes 1, and the same
record then falls through to the routing code.  A `lineToBucket` miss skips
the record; an out-of-range bucket index calls `os.Exit(1)` (`none`). -/
def loopStep (ltb : Int → Option Nat) (nch : Nat)
    (st : List (List Record) × Int) (r : Record) : Option (List (List Record) × Int) :=
  let files := if st.2 = 0 then st.1.map (fun f => f ++ [r]) else st.1
  let ln : Int := if st.2 = 0 then 1 else st.2
  match ltb ln with
  | none => some (files, ln + 1)
  | some b => if b < nch then some (appendAt files b r, ln + 1) else none

/-- `write` from `main.go`, sequential view: the per-bucket output contents
(each output is written only by its own writer goroutine, in channel FIFO
order, so the contents are the routed subsequences; `CStep` below justifies
this against arbitrary interleavings). -/
def write (input : List Record) (buckets : List FileBucket) :
    Option (List (List Record)) :=
  (input.foldlM (loopStep (lineToBucket buckets) buckets.length)
    (List.replicate buckets.length [], (0 : Int))).map Prod.fst

/-- Output file naming: `fmt.Sprintf("%s%d.csv", prefix, i+1)`. -/
def outputName (pfx : String) (i : Nat) : String := pfx ++ toString (i + 1) ++ ".csv"

/-- The named outputs of the write pass. -/
def namedOutputs (pfx : String) (files : List (List Record)) :
    List (String × List Record) :=
  files.enum.map fun p => (outputName pfx p.1, p.2)

/-- The `split` pipeline: scan, binpack, write (`sorted` is the sort result,
see `sortSpec`). -/
def split (input : List Record) (sorted : List LineMeta) (bucketsN : Int) :
    Option (List (List Record)) :=
  match scan input with
  | none => none
  | some _ =>
    match binpack sorted bucketsN with
    | none => none
    | some buckets => write input buckets

/-- State of the concurrent write pass: unread input, `lineNum`, channel
contents (FIFO queues) and output file contents. -/
structure CState where
  pending : List Record
  ln : Int
  queues : List (List Record)
  files : List (List Record)
deriving DecidableEq

/-- One producer iteration in the concurrent model: identical control flow to
`loopStep`, but a routed record is enqueued on its bucket's channel instead of
being written directly.  The header write at `lineNum == 0` goes straight to
the output files (the code calls `w.Write` directly there). -/
def prodNext (ltb : Int → Option Nat) (nch : Nat) (r : Record) (rest : List Record)
    (s : CState) : Option CState :=
  let files := if s.ln = 0 then s.files.map (fun f => f ++ [r]) else s.files
  let ln : Int := if s.ln = 0 then 1 else s.ln
  match ltb ln with
  | none => some ⟨rest, ln + 1, s.queues, files⟩
  | some b => if b < nch then some ⟨rest, ln + 1, appendAt s.queues b r, files⟩ else none

/-- Small-step semantics of the concurrent write pass: either the producer
processes the next input record, or the writer goroutine of bucket `b`
dequeues one record from its channel and appends it to its file. -/
inductive CStep (ltb : Int → Option Nat) (nch : Nat) : CState → CState → Prop where
  | produce (s s' : CState) (r : Record) (rest : List Record)
      (hp : s.pending = r :: rest) (hn : prodNext ltb nch r rest s = some s') :
      CStep ltb nch s s'
  | consume (s : CState) (b : Nat) (r : Record) (q : List Record)
      (hb : b < s.queues.length) (hq : s.queues.getD b [] = r :: q) :
      CStep ltb nch s ⟨s.pending, s.ln, s.queues.set b q, appendAt s.files b r⟩

/-- Reachability under an arbitrary interleaving. -/
def CReach (ltb : Int → Option Nat) (nch : Nat) : CState → CState → Prop :=
  Relation.ReflTransGen (CStep ltb nch)

/-- Initial state of the concurrent write pass. -/
def initState (input : List Record) (nch : Nat) : CState :=
  ⟨input, 0, List.replicate nch [], List.replicate nch []⟩

/-- A finished run: the input is exhausted and every channel has been drained
(the shutdown protocol closes each channel and waits for every writer). -/
def CComplete (s : CState) : Prop := s.pending = [] ∧ ∀ q ∈ s.queues, q = []

/-- The stable weight-descending order claimed by the specification:
sizes strictly descending, ties broken by ascending ordinal. -/
def stableSizeDesc (l : List LineMeta) : Prop :=
  l.Pairwise (fun a b => b.size < a.size ∨ (a.size = b.size ∧ a.lineNumber < b.lineNumber))

instance (metas sorted : List LineMeta) : Decidable (sortSpec metas sorted) := by
  unfold sortSpec
  infer_instance

instance (l : List LineMeta) : Decidable (stableSizeDesc l) := by
  unfold stableSizeDesc
  infer_instance

/-- The sequential write fold, stopped after the first `k` input records. -/
def SeqRun (ltb : Int → Option Nat) (nch : Nat) (input : List Record) (k : Nat) :
    Option (List (List Record) × Int) :=
  (input.take k).foldlM (loopStep ltb nch) (List.replicate nch [], (0 : Int))

/-- Simulation invariant between a concurrent state and the sequential fold:
some prefix of the input has been produced, the sequential view of that prefix
succeeds, and each sequential file equals the concurrent file followed by the
backlog still sitting in that bucket's channel. -/
def WInv (ltb : Int → Option Nat) (nch : Nat) (input : List Record) (s : CState) : Prop :=
  ∃ k fl ln, k ≤ input.length ∧ s.pending = input.drop k ∧
    SeqRun ltb nch input k = some (fl, ln) ∧ s.ln = ln ∧ 0 ≤ ln ∧
    fl.length = nch ∧ s.files.length = nch ∧ s.queues.length = nch ∧
    (∀ b, b < nch → fl.getD b [] = s.files.getD b [] ++ s.queues.getD b []) ∧
    (ln = 0 → s.queues = List.replicate nch [])

/-- The default `FileBucket` (used only as a `getD` fallback). -/
def dfltBucket : FileBucket := ⟨0, ∅⟩

/-- Correctness of the minimum-search loop: either no element of `bs` beats
the running best `bsz` (and the running index is returned), or the returned
index points (relative to offset `i`) at the first element of `bs` achieving
the minimum, which is strictly below `bsz`. -/
lemma minIndexAux_spec (bs : List FileBucket) : ∀ (best : Nat) (bsz : Int) (i : Nat),
    (minIndexAux bs best bsz i = best ∧
      ∀ k, k < bs.length → bsz ≤ (bs.getD k dfltBucket).totalSize)
    ∨ (∃ k, k < bs.length ∧ minIndexAux bs best bsz i = i + k
        ∧ (bs.getD k dfltBucket).totalSize < bsz
        ∧ (∀ l, l < bs.length →
            (bs.getD k dfltBucket).totalSize ≤ (bs.getD l dfltBucket).totalSize)
        ∧ (∀ l, l < k →
            (bs.getD k dfltBucket).totalSize < (bs.getD l dfltBucket).totalSize)) := by
  induction bs with
  | nil =>
    intro best bsz i
    left
    exact ⟨rfl, fun k hk => absurd hk (by simp)⟩
  | cons b rest ih =>
    intro best bsz i
    simp only [minIndexAux]
    by_cases hlt : b.totalSize < bsz
    · rw [if_pos hlt]
      rcases ih i b.totalSize (i + 1) with ⟨heq, hall⟩ | ⟨k, hk, heq, hklt, hmin, hfirst⟩
      · right
        refine ⟨0, by simp, by omega, by simpa using hlt, ?_, ?_⟩
        · intro l hl
          match l with
          | 0 => simp
          | Nat.succ l' =>
            simp only [List.getD_cons_succ, List.getD_cons_zero]
            exact hall l' (by simpa using hl)
        · intro l hl
          omega
      · right
        refine ⟨k + 1, by simpa using hk, by omega, ?_, ?_, ?_⟩
        · simpa only [List.getD_cons_succ] using lt_trans hklt hlt
        · intro l hl
          match l with
          | 0 =>
            simp only [List.getD_cons_succ, List.getD_cons_zero]
            exact le_of_lt hklt
          | Nat.succ l' =>
            simp only [List.getD_cons_succ]
            exact hmin l' (by simpa using hl)
        · intro l hl
          match l with
          | 0 =>
            simp only [List.getD_cons_succ, List.getD_cons_zero]
            exact hklt
          | Nat.succ l' =>
            simp only [List.getD_cons_succ]
            exact hfirst l' (by omega)
    · rw [if_neg hlt]
      have hge : bsz ≤ b.totalSize := not_lt.mp hlt
      rcases ih best bsz (i + 1) with ⟨heq, hall⟩ | ⟨k, hk, heq, hklt, hmin, hfirst⟩
      · left
        refine ⟨heq, ?_⟩
        intro k hkl
        match k with
        | 0 => simpa using hge
        | Nat.succ k' =>
          simp only [List.getD_cons_succ]
          exact hall k' (by simpa using hkl)
      · right
        refine ⟨k + 1, by simpa using hk, by omega, ?_, ?_, ?_⟩
        · simpa only [List.getD_cons_succ] using hklt
        · intro l hl
          match l with
          | 0 =>
            simp only [List.getD_cons_succ, List.getD_cons_zero]
            exact le_of_lt (lt_of_lt_of_le hklt hge)
          | Nat.succ l' =>
            simp only [List.getD_cons_succ]
            exact hmin l' (by simpa using hl)
        · intro l hl
          match l with
          | 0 =>
            simp only [List.getD_cons_succ, List.getD_cons_zero]
            exact lt_of_lt_of_le hklt hge
          | Nat.succ l' =>
            simp only [List.getD_cons_succ]
            exact hfirst l' (by omega)

/-- `minBucketIndex` selects a valid index, of minimal total size, and is the
first index achieving that minimum. -/
lemma minBucketIndex_spec (bs : List FileBucket) (h : bs ≠ []) :
    minBucketIndex bs < bs.length ∧
    (∀ j, j < bs.length →
      (bs.getD (minBucketIndex bs) dfltBucket).totalSize ≤ (bs.getD j dfltBucket).totalSize) ∧
    (∀ j, j < minBucketIndex bs →
      (bs.getD (minBucketIndex bs) dfltBucket).totalSize < (bs.getD j dfltBucket).totalSize) := by
  match bs with
  | [] => exact absurd rfl h
  | b :: rest =>
    simp only [minBucketIndex]
    rcases minIndexAux_spec rest 0 b.totalSize 1 with ⟨heq, hall⟩ | ⟨k, hk, heq, hklt, hmin, hfirst⟩
    · rw [heq]
      refine ⟨by simp, ?_, ?_⟩
      · intro j hj
        match j with
        | 0 => simp
        | Nat.succ j' =>
          simp only [List.getD_cons_succ, List.getD_cons_zero]
          exact hall j' (by simpa using hj)
      · intro j hj
        omega
    · rw [heq]
      have hkeq : 1 + k = k + 1 := by omega
      rw [hkeq]
      refine ⟨by simpa using hk, ?_, ?_⟩
      · intro j hj
        match j with
        | 0 =>
          simp only [List.getD_cons_succ, List.getD_cons_zero]
          exact le_of_lt hklt
        | Nat.succ j' =>
          simp only [List.getD_cons_succ]
          exact hmin j' (by simpa using hj)
      · intro j hj
        match j with
        | 0 =>
          simp only [List.getD_cons_succ, List.getD_cons_zero]
          exact hklt
        | Nat.succ j' =>
          simp only [List.getD_cons_succ]
          exact hfirst j' (by omega)

/-- Unfolded form of `assign` on a non-empty bucket list. -/
lemma assign_eq (bs : List FileBucket) (m : LineMeta) (h : bs ≠ []) :
    assign bs m = bs.set (minBucketIndex bs)
      ⟨(bs.getD (minBucketIndex bs) dfltBucket).totalSize + m.size,
       insert m.lineNumber (bs.getD (minBucketIndex bs) dfltBucket).lineNums⟩ := by
  have hlt : minBucketIndex bs < bs.length := (minBucketIndex_spec bs h).1
  have hget : bs.get? (minBucketIndex bs) = some (bs.getD (minBucketIndex bs) dfltBucket) := by
    rw [List.get?_eq_get hlt]
    simp [List.getD, List.getElem?_eq_getElem hlt, List.get_eq_getElem]
  rw [assign, hget]

/-- `assign` preserves the number of buckets. -/
lemma assign_length (bs : List FileBucket) (m : LineMeta) :
    (assign bs m).length = bs.length := by
  rw [assign]
  cases bs.get? (minBucketIndex bs) with
  | none => rfl
  | some b => simp

/-- `assign` preserves non-emptiness. -/
lemma assign_ne_nil (bs : List FileBucket) (m : LineMeta) (h : bs ≠ []) :
    assign bs m ≠ [] := by
  intro hc
  have hlen := assign_length bs m
  rw [hc] at hlen
  have h0 : bs.length ≠ 0 := fun h0 => h (List.eq_nil_of_length_eq_zero h0)
  simp at hlen
  omega

/-- Setting one position changes a mapped sum by the difference at that
position (stated additively). -/
lemma sum_map_set {α : Type} (f : α → Int) (d : α) :
    ∀ (l : List α) (i : Nat), i < l.length → ∀ (a : α),
      ((l.set i a).map f).sum + f (l.getD i d) = (l.map f).sum + f a := by
  intro l
  induction l with
  | nil => intro i hi; simp at hi
  | cons b rest ih =>
    intro i hi a
    match i with
    | 0 => simp [List.set]; ring
    | Nat.succ i' =>
      have := ih i' (by simpa using hi) a
      simp only [List.set, List.map_cons, List.sum_cons, List.getD_cons_succ]
      omega

/-- One assignment adds exactly the record's size to the total over all
buckets. -/
lemma assign_sum (bs : List FileBucket) (m : LineMeta) (h : bs ≠ []) :
    ((assign bs m).map FileBucket.totalSize).sum
      = (bs.map FileBucket.totalSize).sum + m.size := by
  have hlt : minBucketIndex bs < bs.length := (minBucketIndex_spec bs h).1
  rw [assign_eq bs m h]
  have := sum_map_set FileBucket.totalSize dfltBucket bs (minBucketIndex bs) hlt
    ⟨(bs.getD (minBucketIndex bs) dfltBucket).totalSize + m.size,
     insert m.lineNumber (bs.getD (minBucketIndex bs) dfltBucket).lineNums⟩
  simp only [] at this
  omega

/-- Summed over the whole greedy fold: total weight is conserved. -/
lemma greedy_sum : ∀ (l : List LineMeta) (bs : List FileBucket), bs ≠ [] →
    ((l.foldl assign bs).map FileBucket.totalSize).sum
      = (bs.map FileBucket.totalSize).sum + (l.map LineMeta.size).sum := by
  intro l
  induction l with
  | nil => intro bs _; simp
  | cons m rest ih =>
    intro bs hbs
    have h1 := ih (assign bs m) (assign_ne_nil bs m hbs)
    simp only [List.foldl_cons, List.map_cons, List.sum_cons]
    rw [h1, assign_sum bs m hbs]
    ring

/-- Setting one position changes `countP` by the difference of the predicate
on the old and the new element (stated additively). -/
lemma countP_set (p : FileBucket → Bool) :
    ∀ (l : List FileBucket) (i : Nat), i < l.length → ∀ (a : FileBucket),
      (l.set i a).countP p + (if p (l.getD i dfltBucket) then 1 else 0)
        = l.countP p + (if p a then 1 else 0) := by
  intro l
  induction l with
  | nil => intro i hi; simp at hi
  | cons b rest ih =>
    intro i hi a
    match i with
    | 0 =>
      simp only [List.set, List.countP_cons, List.getD_cons_zero]
      omega
    | Nat.succ i' =>
      have := ih i' (by simpa using hi) a
      simp only [List.set, List.countP_cons, List.getD_cons_succ]
      omega

/-- An element taken by `getD` under the length bound is a member. -/
lemma getD_mem {α : Type} (l : List α) (i : Nat) (d : α) (h : i < l.length) :
    l.getD i d ∈ l := by
  have : l.getD i d = l.get ⟨i, h⟩ := by
    simp [List.getD, List.getElem?_eq_getElem h, List.get_eq_getElem]
  rw [this]
  exact List.get_mem l i h

/-- Membership in the buckets after one assignment: every bucket is either an
original bucket or the updated minimal bucket. -/
lemma assign_mem (bs : List FileBucket) (m : LineMeta) (h : bs ≠ []) (b' : FileBucket)
    (hb' : b' ∈ assign bs m) :
    b' ∈ bs ∨ ∃ bo, bo ∈ bs ∧
      b' = ⟨bo.totalSize + m.size, insert m.lineNumber bo.lineNums⟩ := by
  rw [assign_eq bs m h] at hb'
  rcases List.mem_or_eq_of_mem_set hb' with hmem | heq
  · exact Or.inl hmem
  · exact Or.inr ⟨bs.getD (minBucketIndex bs) dfltBucket,
      getD_mem bs (minBucketIndex bs) dfltBucket (minBucketIndex_spec bs h).1, heq⟩

/-- Invariant of the greedy fold: if the ordinals still to be assigned are
distinct and not yet present in any bucket, then after the fold every
assigned ordinal lies in exactly one bucket and the bucket count of every
other value is unchanged. -/
lemma greedy_countP (n : Int) :
    ∀ (l : List LineMeta) (bs : List FileBucket), bs ≠ [] →
      (l.map LineMeta.lineNumber).Nodup →
      (∀ m ∈ l, ∀ b ∈ bs, m.lineNumber ∉ b.lineNums) →
      (l.foldl assign bs).countP (fun b => decide (n ∈ b.lineNums))
        = bs.countP (fun b => decide (n ∈ b.lineNums))
          + (if n ∈ l.map LineMeta.lineNumber then 1 else 0) := by
  intro l
  induction l with
  | nil => intro bs _ _ _; simp
  | cons m rest ih =>
    intro bs hbs hnd hfresh
    have hmin := minBucketIndex_spec bs hbs
    have hbo : bs.getD (minBucketIndex bs) dfltBucket ∈ bs :=
      getD_mem bs (minBucketIndex bs) dfltBucket hmin.1
    have hndr : (rest.map LineMeta.lineNumber).Nodup := (List.nodup_cons.mp (by simpa using hnd)).2
    have hmne : m.lineNumber ∉ rest.map LineMeta.lineNumber :=
      (List.nodup_cons.mp (by simpa using hnd)).1
    have hfresh' : ∀ m' ∈ rest, ∀ b ∈ assign bs m, m'.lineNumber ∉ b.lineNums := by
      intro m' hm' b hb
      rcases assign_mem bs m hbs b hb with hmem | ⟨bo, hbomem, rfl⟩
      · exact hfresh m' (List.mem_cons_of_mem _ hm') b hmem
      · simp only [Finset.mem_insert]
        push_neg
        constructor
        · intro hceq
          exact hmne (hceq ▸ List.mem_map_of_mem LineMeta.lineNumber hm')
        · exact hfresh m' (List.mem_cons_of_mem _ hm') bo hbomem
    have hstep := ih (assign bs m) (assign_ne_nil bs m hbs) hndr hfresh'
    simp only [List.foldl_cons]
    rw [hstep]
    -- relate the bucket count after one assignment to the one before
    have hset := countP_set (fun b => decide (n ∈ b.lineNums)) bs (minBucketIndex bs) hmin.1
      ⟨(bs.getD (minBucketIndex bs) dfltBucket).totalSize + m.size,
       insert m.lineNumber (bs.getD (minBucketIndex bs) dfltBucket).lineNums⟩
    rw [← assign_eq bs m hbs] at hset
    by_cases hcase : n = m.lineNumber
    · have hbonot : n ∉ (bs.getD (minBucketIndex bs) dfltBucket).lineNums := by
        rw [hcase]
        exact hfresh m (List.mem_cons_self m rest) _ hbo
      have hinsm : n ∈ insert m.lineNumber (bs.getD (minBucketIndex bs) dfltBucket).lineNums := by
        rw [hcase]
        exact Finset.mem_insert_self _ _
      simp only [] at hset
      rw [decide_eq_false hbonot, decide_eq_true hinsm] at hset
      rw [if_neg Bool.false_ne_true, if_pos rfl] at hset
      have hnr : n ∉ rest.map LineMeta.lineNumber := by
        rw [hcase]
        exact hmne
      have hmem1 : n ∈ (m :: rest).map LineMeta.lineNumber := by simp [hcase]
      rw [if_neg hnr, if_pos hmem1]
      omega
    · have hmm : (if n ∈ (m :: rest).map LineMeta.lineNumber then (1 : Nat) else 0)
          = (if n ∈ rest.map LineMeta.lineNumber then 1 else 0) := by
        simp [hcase]
      rw [hmm]
      have heqc : (assign bs m).countP (fun b => decide (n ∈ b.lineNums))
          = bs.countP (fun b => decide (n ∈ b.lineNums)) := by
        by_cases hnb : n ∈ (bs.getD (minBucketIndex bs) dfltBucket).lineNums
        · simp only [hnb, Finset.mem_insert, hcase, false_or, decide_True, if_true] at hset
          omega
        · simp only [hnb, Finset.mem_insert, hcase, false_or, decide_False, if_false] at hset
          omega
      rw [heqc]

/-- Length of the meta list produced by the scan loop. -/
lemma scanAux_length : ∀ (data : List Record) (line : Int),
    (scanAux line data).length = data.length := by
  intro data
  induction data with
  | nil => intro line; rfl
  | cons r rest ih => intro line; simp [scanAux, ih]

/-- The `j`-th meta produced by the scan loop: ordinal `line + j`, size the
parsed weight field with the error discarded. -/
lemma scanAux_getD : ∀ (data : List Record) (line : Int) (j : Nat), j < data.length →
    (scanAux line data).getD j ⟨0, 0⟩
      = ⟨line + (j : Int), (parseInt64 (field2 (data.getD j []))).1⟩ := by
  intro data
  induction data with
  | nil => intro line j hj; simp at hj
  | cons r rest ih =>
    intro line j hj
    match j with
    | 0 => simp [scanAux]
    | Nat.succ j' =>
      have := ih (line + 1) j' (by simpa using hj)
      simp only [scanAux, List.getD_cons_succ, this]
      congr 1
      push_cast
      ring

/-- Lower bound on the ordinals produced by the scan loop. -/
lemma scanAux_ord_le : ∀ (data : List Record) (line : Int) (m : LineMeta),
    m ∈ scanAux line data → line ≤ m.lineNumber := by
  intro data
  induction data with
  | nil => intro line m hm; simp [scanAux] at hm
  | cons r rest ih =>
    intro line m hm
    rcases (by simpa [scanAux] using hm :
        m = (⟨line, (parseInt64 (field2 r)).1⟩ : LineMeta) ∨ m ∈ scanAux (line + 1) rest) with
      heq | hmem
    · rw [heq]
    · have := ih (line + 1) m hmem
      omega

/-- The scan loop produces pairwise distinct ordinals. -/
lemma scanAux_nodup : ∀ (data : List Record) (line : Int),
    ((scanAux line data).map LineMeta.lineNumber).Nodup := by
  intro data
  induction data with
  | nil => intro line; simp [scanAux]
  | cons r rest ih =>
    intro line
    simp only [scanAux, List.map_cons, List.nodup_cons]
    refine ⟨?_, ih (line + 1)⟩
    intro hmem
    rcases List.mem_map.mp hmem with ⟨m, hm, hord⟩
    have := scanAux_ord_le rest (line + 1) m hm
    omega

/-- `appendAt` preserves the number of output files. -/
lemma appendAt_length {α : Type} : ∀ (l : List (List α)) (b : Nat) (r : α),
    (appendAt l b r).length = l.length := by
  intro l
  induction l with
  | nil => intro b r; cases b <;> rfl
  | cons f rest ih =>
    intro b r
    cases b with
    | zero => rfl
    | succ b' => simp [appendAt, ih]

/-- `appendAt` appends to the addressed file. -/
lemma appendAt_getD_self {α : Type} : ∀ (l : List (List α)) (b : Nat), b < l.length →
    ∀ (r : α), (appendAt l b r).getD b [] = l.getD b [] ++ [r] := by
  intro l
  induction l with
  | nil => intro b hb; simp at hb
  | cons f rest ih =>
    intro b hb r
    cases b with
    | zero => simp [appendAt]
    | succ b' =>
      simp only [appendAt, List.getD_cons_succ]
      exact ih b' (by simpa using hb) r

/-- `appendAt` leaves the other files unchanged. -/
lemma appendAt_getD_ne {α : Type} : ∀ (l : List (List α)) (b c : Nat), c ≠ b →
    ∀ (r : α), (appendAt l b r).getD c [] = l.getD c [] := by
  intro l
  induction l with
  | nil => intro b c _ r; cases b <;> rfl
  | cons f rest ih =>
    intro b c hne r
    cases b with
    | zero =>
      cases c with
      | zero => exact absurd rfl hne
      | succ c' => simp [appendAt]
    | succ b' =>
      cases c with
      | zero => simp [appendAt]
      | succ c' =>
        simp only [appendAt, List.getD_cons_succ]
        exact ih b' c' (fun h => hne (by rw [h])) r

/-- Appending a record to every file, viewed through `getD`. -/
lemma getD_map_append {α : Type} : ∀ (l : List (List α)) (b : Nat), b < l.length →
    ∀ (r : α), (l.map (fun f => f ++ [r])).getD b [] = l.getD b [] ++ [r] := by
  intro l
  induction l with
  | nil => intro b hb; simp at hb
  | cons f rest ih =>
    intro b hb r
    cases b with
    | zero => simp
    | succ b' =>
      simp only [List.map_cons, List.getD_cons_succ]
      exact ih b' (by simpa using hb) r

/-- `set`, viewed through `getD`, at the written index. -/
lemma getD_set_self {α : Type} : ∀ (l : List α) (i : Nat), i < l.length →
    ∀ (a d : α), (l.set i a).getD i d = a := by
  intro l
  induction l with
  | nil => intro i hi; simp at hi
  | cons f rest ih =>
    intro i hi a d
    cases i with
    | zero => simp [List.set]
    | succ i' =>
      simp only [List.set, List.getD_cons_succ]
      exact ih i' (by simpa using hi) a d

/-- `set`, viewed through `getD`, at any other index. -/
lemma getD_set_ne {α : Type} : ∀ (l : List α) (i j : Nat), j ≠ i →
    ∀ (a d : α), (l.set i a).getD j d = l.getD j d := by
  intro l
  induction l with
  | nil => intro i j _ a d; rfl
  | cons f rest ih =>
    intro i j hne a d
    cases i with
    | zero =>
      cases j with
      | zero => exact absurd rfl hne
      | succ j' => simp [List.set]
    | succ i' =>
      cases j with
      | zero => simp [List.set]
      | succ j' =>
        simp only [List.set, List.getD_cons_succ]
        exact ih i' j' (fun h => hne (by rw [h])) a d

/-- Every position of a replicated empty-file list reads as empty. -/
lemma getD_replicate_nil {α : Type} : ∀ (n b : Nat),
    (List.replicate n ([] : List α)).getD b [] = [] := by
  intro n
  induction n with
  | zero => intro b; cases b <;> rfl
  | succ n' ih =>
    intro b
    cases b with
    | zero => rfl
    | succ b' => simpa [List.replicate] using ih b'

/-- `foldlM` over `Option`, peeled at the right end. -/
lemma foldlM_concat {σ α : Type} (f : σ → α → Option σ) :
    ∀ (l : List α) (a : α) (s : σ),
      (l ++ [a]).foldlM f s = (l.foldlM f s).bind (fun s' => f s' a) := by
  intro l
  induction l with
  | nil =>
    intro a s
    simp [List.foldlM]
  | cons b rest ih =>
    intro a s
    simp only [List.cons_append, List.foldlM_cons]
    cases f s b with
    | none => rfl
    | some s' => simpa using ih a s'

/-- The `lineNum` component after one loop iteration. -/
lemma loopStep_ln (ltb : Int → Option Nat) (nch : Nat)
    (st st' : List (List Record) × Int) (r : Record)
    (h : loopStep ltb nch st r = some st') :
    st'.2 = (if st.2 = 0 then 1 else st.2) + 1 := by
  rw [loopStep] at h
  rcases hl : ltb (if st.2 = 0 then 1 else st.2) with _ | b
  · rw [hl] at h
    simp only [Option.some.injEq] at h
    rw [← h]
  · rw [hl] at h
    by_cases hb : b < nch
    · simp only [hb, if_true, Option.some.injEq] at h
      rw [← h]
    · simp [hb] at h

/-- The number of files after one loop iteration. -/
lemma loopStep_length (ltb : Int → Option Nat) (nch : Nat)
    (st st' : List (List Record) × Int) (r : Record)
    (h : loopStep ltb nch st r = some st') :
    st'.1.length = st.1.length := by
  rw [loopStep] at h
  rcases hl : ltb (if st.2 = 0 then 1 else st.2) with _ | b
  · rw [hl] at h
    simp only [Option.some.injEq] at h
    rw [← h]
    by_cases h0 : st.2 = 0 <;> simp [h0]
  · rw [hl] at h
    by_cases hb : b < nch
    · simp only [hb, if_true, Option.some.injEq] at h
      rw [← h]
      by_cases h0 : st.2 = 0 <;> simp [h0, appendAt_length]
    · simp [hb] at h

/-- After a successful fold from a non-zero `lineNum`, the counter advances by
the number of records processed. -/
lemma foldlM_ln_ne (ltb : Int → Option Nat) (nch : Nat) :
    ∀ (l : List Record) (st st' : List (List Record) × Int), 0 < st.2 →
      l.foldlM (loopStep ltb nch) st = some st' → st'.2 = st.2 + l.length := by
  intro l
  induction l with
  | nil =>
    intro st st' _ h
    simp only [List.foldlM_nil] at h
    cases h
    simp
  | cons r rest ih =>
    intro st st' hpos h
    simp only [List.foldlM_cons] at h
    rcases hs : loopStep ltb nch st r with _ | st1
    · rw [hs] at h; exact absurd h (by simp)
    · rw [hs] at h
      simp at h
      have h1 := loopStep_ln ltb nch st st1 r hs
      rw [if_neg (show ¬ st.2 = 0 by omega)] at h1
      have h2 := ih st1 st' (by omega) h
      simp only [List.length_cons]
      omega

/-- After a successful fold from the initial `lineNum` 0: the counter stays 0
on empty input and is `length + 1` otherwise (the header iteration advances
it twice). -/
lemma foldlM_ln_zero (ltb : Int → Option Nat) (nch : Nat)
    (l : List Record) (fl : List (List Record)) (st' : List (List Record) × Int)
    (h : l.foldlM (loopStep ltb nch) (fl, (0 : Int)) = some st') :
    (l = [] ∧ st'.2 = 0) ∨ (l ≠ [] ∧ st'.2 = (l.length : Int) + 1) := by
  match l with
  | [] =>
    left
    simp only [List.foldlM_nil] at h
    cases h
    exact ⟨rfl, rfl⟩
  | r :: rest =>
    right
    refine ⟨by simp, ?_⟩
    simp only [List.foldlM_cons] at h
    rcases hs : loopStep ltb nch (fl, (0 : Int)) r with _ | st1
    · rw [hs] at h; exact absurd h (by simp)
    · rw [hs] at h
      simp at h
      have h1 := loopStep_ln ltb nch _ st1 r hs
      simp at h1
      have h2 := foldlM_ln_ne ltb nch rest st1 st' (by omega) h
      simp only [List.length_cons]
      push_cast
      omega

/-- Values stored by the index-building loop are below the running offset
plus the number of remaining buckets. -/
lemma lineToBucketAux_lt (n : Int) : ∀ (bs : List FileBucket) (i : Nat) (acc : Option Nat),
    (∀ j, acc = some j → j < i) → ∀ r, lineToBucketAux n bs i acc = some r →
      r < i + bs.length := by
  intro bs
  induction bs with
  | nil =>
    intro i acc hacc r hr
    have := hacc r hr
    simpa using this
  | cons b rest ih =>
    intro i acc hacc r hr
    rw [lineToBucketAux] at hr
    have hacc' : ∀ j, (if n ∈ b.lineNums then some i else acc) = some j → j < i + 1 := by
      intro j hj
      by_cases hm : n ∈ b.lineNums
      · rw [if_pos hm] at hj
        cases hj
        omega
      · rw [if_neg hm] at hj
        have := hacc j hj
        omega
    have := ih (i + 1) _ hacc' r hr
    simp only [List.length_cons]
    omega

/-- Every value of the ordinal-to-bucket index is a valid bucket index. -/
lemma lineToBucket_lt (buckets : List FileBucket) (n : Int) (i : Nat)
    (h : lineToBucket buckets n = some i) : i < buckets.length := by
  have := lineToBucketAux_lt n buckets 0 none (by intro j hj; cases hj) i h
  simpa using this

/-- With an in-range index the write fold never aborts. -/
lemma foldlM_write_isSome (ltb : Int → Option Nat) (nch : Nat)
    (hltb : ∀ n i, ltb n = some i → i < nch) :
    ∀ (l : List Record) (st : List (List Record) × Int),
      (l.foldlM (loopStep ltb nch) st).isSome := by
  intro l
  induction l with
  | nil => intro st; simp
  | cons r rest ih =>
    intro st
    simp only [List.foldlM_cons]
    rw [loopStep]
    rcases hl : ltb (if st.2 = 0 then 1 else st.2) with _ | b
    · simpa using ih _
    · simpa [hltb _ _ hl] using ih _

/-- The write pass never takes the fatal out-of-range branch. -/
lemma write_isSome (input : List Record) (buckets : List FileBucket) :
    (write input buckets).isSome := by
  rw [write]
  have := foldlM_write_isSome (lineToBucket buckets) buckets.length
    (fun n i h => lineToBucket_lt buckets n i h) input
    (List.replicate buckets.length [], (0 : Int))
  rcases hr : input.foldlM (loopStep (lineToBucket buckets) buckets.length)
      (List.replicate buckets.length [], (0 : Int)) with _ | st
  · rw [hr] at this; simp at this
  · simp

/-- Two lists agreeing on length and on `getD` at every index are equal. -/
lemma getD_ext {α : Type} : ∀ (l1 l2 : List α) (d : α), l1.length = l2.length →
    (∀ i, i < l1.length → l1.getD i d = l2.getD i d) → l1 = l2 := by
  intro l1
  induction l1 with
  | nil =>
    intro l2 d hlen _
    cases l2 with
    | nil => rfl
    | cons b bs => simp at hlen
  | cons a as ih =>
    intro l2 d hlen hget
    cases l2 with
    | nil => simp at hlen
    | cons b bs =>
      have h0 := hget 0 (by simp)
      simp only [List.getD_cons_zero] at h0
      have htail := ih bs d (by simpa using hlen) (fun i hi => by
        have := hget (i + 1) (by simpa using hi)
        simpa using this)
      rw [h0, htail]

/-- The initial state satisfies the invariant. -/
lemma winv_init (ltb : Int → Option Nat) (nch : Nat) (input : List Record) :
    WInv ltb nch input (initState input nch) := by
  refine ⟨0, List.replicate nch [], 0, by simp, by simp [initState], ?_, rfl, le_refl 0,
    by simp, by simp [initState], by simp [initState], ?_, fun _ => rfl⟩
  · rw [SeqRun]
    simp
  · intro b hb
    simp [initState, getD_replicate_nil]

/-- The invariant is preserved by every step of the concurrent write pass. -/
lemma winv_step (ltb : Int → Option Nat) (nch : Nat) (input : List Record)
    (s s' : CState) (hstep : CStep ltb nch s s') (hinv : WInv ltb nch input s) :
    WInv ltb nch input s' := by
  obtain ⟨k, fl, ln, hk, hpend, hseq, hln, hge, hfl, hsf, hsq, hrel, hq0⟩ := hinv
  cases hstep with
  | consume b r q hb hq =>
    refine ⟨k, fl, ln, hk, hpend, hseq, hln, hge, hfl, ?_, ?_, ?_, ?_⟩
    · simpa [appendAt_length] using hsf
    · simpa using hsq
    · intro c hc
      show fl.getD c [] = (appendAt s.files b r).getD c [] ++ (s.queues.set b q).getD c []
      by_cases hcb : c = b
      · subst hcb
        rw [appendAt_getD_self s.files c (by omega) r,
          getD_set_self s.queues c (by omega) q []]
        rw [hrel c hc, hq]
        simp
      · rw [appendAt_getD_ne s.files b c hcb r, getD_set_ne s.queues b c hcb q []]
        exact hrel c hc
    · intro hln0
      exfalso
      have hrep := hq0 hln0
      rw [hrep] at hq
      rw [getD_replicate_nil] at hq
      exact absurd hq (by simp)
  | produce s2 r rest hp hn =>
    have hdrop : input.drop k = r :: rest := by rw [← hpend, hp]
    have hklt : k < input.length := by
      by_contra hc
      have hnil : input.drop k = [] := List.drop_eq_nil_of_le (by omega)
      rw [hnil] at hdrop
      exact absurd hdrop (by simp)
    have hget : input[k]? = some r := by
      have h1 := List.getElem?_drop input k 0
      rw [hdrop] at h1
      simpa using h1.symm
    have htake : input.take (k + 1) = input.take k ++ [r] := by
      rw [List.take_succ, hget]
      rfl
    have hdrop1 : input.drop (k + 1) = rest := by
      have h1 : List.drop 1 (List.drop k input) = List.drop (k + 1) input :=
        List.drop_drop 1 k input
      rw [hdrop] at h1
      simpa using h1.symm
    have hseq1 : SeqRun ltb nch input (k + 1) = loopStep ltb nch (fl, ln) r := by
      rw [SeqRun, htake, foldlM_concat]
      rw [SeqRun] at hseq
      rw [hseq]
      rfl
    -- the base relation after the (possible) header broadcast
    have hbase : ∀ b, b < nch →
        (if ln = 0 then fl.map (fun f => f ++ [r]) else fl).getD b []
          = (if ln = 0 then s.files.map (fun f => f ++ [r]) else s.files).getD b []
            ++ s.queues.getD b [] := by
      intro b hb
      by_cases hln0 : ln = 0
      · rw [if_pos hln0, if_pos hln0]
        rw [getD_map_append fl b (by omega) r, getD_map_append s.files b (by omega) r]
        have hqb : s.queues.getD b [] = [] := by
          rw [hq0 hln0]
          exact getD_replicate_nil nch b
        rw [hqb, hrel b hb, hqb]
        simp
      · rw [if_neg hln0, if_neg hln0]
        exact hrel b hb
    rw [prodNext, hln] at hn
    rw [loopStep] at hseq1
    rcases hltb : ltb (if ln = 0 then 1 else ln) with _ | b0
    · rw [hltb] at hn hseq1
      simp only [Option.some.injEq] at hn
      refine ⟨k + 1, if ln = 0 then fl.map (fun f => f ++ [r]) else fl,
        (if ln = 0 then 1 else ln) + 1, by omega, ?_, ?_, ?_, ?_, ?_, ?_, ?_, ?_, ?_⟩
      · rw [← hn, hdrop1]
      · exact hseq1
      · rw [← hn]
      · by_cases hln0 : ln = 0 <;> simp [hln0] <;> omega
      · by_cases hln0 : ln = 0 <;> simp [hln0, hfl]
      · rw [← hn]
        by_cases hln0 : ln = 0 <;> simp [hln0, hsf]
      · rw [← hn]
        simpa using hsq
      · intro b hb
        rw [← hn]
        exact hbase b hb
      · intro habs
        exfalso
        by_cases hln0 : ln = 0 <;> simp [hln0] at habs <;> omega
    · rw [hltb] at hn hseq1
      by_cases hb0 : b0 < nch
      · simp only [hb0, if_true, Option.some.injEq] at hn
        refine ⟨k + 1,
          appendAt (if ln = 0 then fl.map (fun f => f ++ [r]) else fl) b0 r,
          (if ln = 0 then 1 else ln) + 1, by omega, ?_, ?_, ?_, ?_, ?_, ?_, ?_, ?_, ?_⟩
        · rw [← hn, hdrop1]
        · rw [hseq1]
          simp only [hb0, if_true]
        · rw [← hn]
        · by_cases hln0 : ln = 0 <;> simp [hln0] <;> omega
        · rw [appendAt_length]
          by_cases hln0 : ln = 0 <;> simp [hln0, hfl]
        · rw [← hn]
          by_cases hln0 : ln = 0 <;> simp [hln0, hsf]
        · rw [← hn]
          simpa [appendAt_length] using hsq
        · intro b hb
          rw [← hn]
          show (appendAt (if ln = 0 then fl.map (fun f => f ++ [r]) else fl) b0 r).getD b []
            = (if ln = 0 then s.files.map (fun f => f ++ [r]) else s.files).getD b []
              ++ (appendAt s.queues b0 r).getD b []
          have hfllen : (if ln = 0 then fl.map (fun f => f ++ [r]) else fl).length = nch := by
            by_cases hln0 : ln = 0 <;> simp [hln0, hfl]
          by_cases hcb : b = b0
          · subst hcb
            rw [appendAt_getD_self _ b (by omega) r,
              appendAt_getD_self s.queues b (by omega) r]
            rw [hbase b hb]
            simp
          · rw [appendAt_getD_ne _ b0 b hcb r, appendAt_getD_ne s.queues b0 b hcb r]
            exact hbase b hb
        · intro habs
          exfalso
          by_cases hln0 : ln = 0 <;> simp [hln0] at habs <;> omega
      · simp only [hb0, if_false] at hn
        exact absurd hn (by simp)

/-- The invariant holds in every reachable state. -/
lemma winv_reach (ltb : Int → Option Nat) (nch : Nat) (input : List Record)
    (s : CState) (hr : CReach ltb nch (initState input nch) s) :
    WInv ltb nch input s := by
  have hr' : Relation.ReflTransGen (CStep ltb nch) (initState input nch) s := hr
  clear hr
  induction hr' with
  | refl => exact winv_init ltb nch input
  | tail hab hbc ih => exact winv_step ltb nch input _ _ hbc ih

/-- Any complete concurrent run of the write pass produces exactly the
sequential fold's files, independent of the interleaving. -/
lemma crun_files (ltb : Int → Option Nat) (nch : Nat) (input : List Record)
    (s : CState) (hr : CReach ltb nch (initState input nch) s) (hc : CComplete s) :
    (input.foldlM (loopStep ltb nch) (List.replicate nch [], (0 : Int))).map Prod.fst
      = some s.files := by
  obtain ⟨k, fl, ln, hk, hpend, hseq, hln, hge, hfl, hsf, hsq, hrel, hq0⟩ :=
    winv_reach ltb nch input s hr
  have hkeq : k = input.length := by
    have hnil : input.drop k = [] := by rw [← hpend, hc.1]
    have := List.drop_eq_nil_iff.mp hnil
    omega
  have htake : input.take k = input := by
    rw [hkeq]
    exact List.take_length input
  rw [SeqRun, htake] at hseq
  rw [hseq]
  have hfiles : fl = s.files := by
    refine getD_ext fl s.files [] (by omega) ?_
    intro i hi
    have hq : s.queues.getD i [] = [] := by
      have hmem : s.queues.getD i [] ∈ s.queues := getD_mem s.queues i [] (by omega)
      exact hc.2 _ hmem
    rw [hrel i (by omega), hq]
    simp
  rw [hfiles]
  rfl

/-- `binpack` on a positive bucket count runs the greedy fold. -/
lemma binpack_pos (sorted : List LineMeta) (B : Int) (hB : 1 ≤ B) :
    binpack sorted B
      = some (sorted.foldl assign (List.replicate B.toNat ⟨0, ∅⟩)) := by
  rw [binpack, if_neg (by omega), if_neg (by omega)]

/-- A positive bucket count yields a non-empty initial bucket list. -/
lemma replicate_bucket_ne_nil (B : Int) (hB : 1 ≤ B) :
    (List.replicate B.toNat (⟨0, ∅⟩ : FileBucket)) ≠ [] := by
  intro h
  have hlen := congrArg List.length h
  simp at hlen
  omega

/-- Partition property of the greedy fold, counted per ordinal. -/
lemma binpack_partition_count (metas sorted : List LineMeta) (B : Int)
    (hs : sortSpec metas sorted) (hnd : (metas.map LineMeta.lineNumber).Nodup)
    (hB : 1 ≤ B) (n : Int) :
    (sorted.foldl assign (List.replicate B.toNat ⟨0, ∅⟩)).countP
        (fun b => decide (n ∈ b.lineNums))
      = if n ∈ metas.map LineMeta.lineNumber then 1 else 0 := by
  have hnds : (sorted.map LineMeta.lineNumber).Nodup := ((hs.1.map _).nodup_iff).mpr hnd
  have hfresh : ∀ m ∈ sorted, ∀ b ∈ List.replicate B.toNat (⟨0, ∅⟩ : FileBucket),
      m.lineNumber ∉ b.lineNums := by
    intro m _ b hb
    have hbe : b = ⟨0, ∅⟩ := List.eq_of_mem_replicate hb
    rw [hbe]
    simp
  have h := greedy_countP n sorted _ (replicate_bucket_ne_nil B hB) hnds hfresh
  rw [h]
  have hz : (List.replicate B.toNat (⟨0, ∅⟩ : FileBucket)).countP
      (fun b => decide (n ∈ b.lineNums)) = 0 := by
    rw [List.countP_eq_zero]
    intro b hb
    have hbe : b = ⟨0, ∅⟩ := List.eq_of_mem_replicate hb
    rw [hbe]
    simp
  rw [hz]
  have hmm : (n ∈ sorted.map LineMeta.lineNumber) ↔ (n ∈ metas.map LineMeta.lineNumber) :=
    (hs.1.map _).mem_iff
  by_cases hmem : n ∈ metas.map LineMeta.lineNumber
  · rw [if_pos (hmm.mpr hmem), if_pos hmem]
  · rw [if_neg (fun hx => hmem (hmm.mp hx)), if_neg hmem]

/-- C1: on input header + records of weights 5 and 7 with one bucket, the
write pass duplicates the header into the bucket of ordinal 1 and drops the
last data record, instead of producing header + both records; each record is
routed under the assignment of the following ordinal. -/
theorem c1_write_shifts_assignments :
    scan [["id", "name", "size"], ["1", "x", "5"], ["2", "y", "7"]]
      = some [⟨1, 5⟩, ⟨2, 7⟩] ∧
    sortSpec [⟨1, 5⟩, ⟨2, 7⟩] [⟨2, 7⟩, ⟨1, 5⟩] ∧
    binpack [⟨2, 7⟩, ⟨1, 5⟩] 1 = some [⟨12, {1, 2}⟩] ∧
    write [["id", "name", "size"], ["1", "x", "5"], ["2", "y", "7"]] [⟨12, {1, 2}⟩]
      = some [[["id", "name", "size"], ["id", "name", "size"], ["1", "x", "5"]]] ∧
    some [[["id", "name", "size"], ["id", "name", "size"], ["1", "x", "5"]]]
      ≠ some [[["id", "name", "size"], ["1", "x", "5"], ["2", "y", "7"]]] := by
  decide

/-- C2 counterexample: for two records of equal weight, the contract of the
unstable `sort.Slice` admits the processing order with the larger ordinal
first, which is weight-descending but does not break the tie by ascending
ordinal. -/
theorem c2_unstable_sort_counterexample :
    sortSpec [⟨1, 5⟩, ⟨2, 5⟩] [⟨2, 5⟩, ⟨1, 5⟩] ∧
    ¬ stableSizeDesc [⟨2, 5⟩, ⟨1, 5⟩] := by
  decide

/-- C2 amended: for any admissible sort result the partitioner processes the
records in weight-descending order (tie order unspecified), and each step
assigns the record to the first bucket of minimal total weight, adding its
weight to that bucket's total and its ordinal to its member set. -/
theorem c2_binpack_greedy_amended (metas sorted : List LineMeta) (B : Int)
    (hs : sortSpec metas sorted) (hB : 1 ≤ B) :
    sorted.Pairwise (fun a b => b.size ≤ a.size) ∧
    binpack sorted B = some (sorted.foldl assign (List.replicate B.toNat ⟨0, ∅⟩)) ∧
    (∀ (bs : List FileBucket) (m : LineMeta), bs ≠ [] →
      minBucketIndex bs < bs.length ∧
      (∀ j, j < bs.length →
        (bs.getD (minBucketIndex bs) dfltBucket).totalSize
          ≤ (bs.getD j dfltBucket).totalSize) ∧
      (∀ j, j < minBucketIndex bs →
        (bs.getD (minBucketIndex bs) dfltBucket).totalSize
          < (bs.getD j dfltBucket).totalSize) ∧
      assign bs m = bs.set (minBucketIndex bs)
        ⟨(bs.getD (minBucketIndex bs) dfltBucket).totalSize + m.size,
         insert m.lineNumber (bs.getD (minBucketIndex bs) dfltBucket).lineNums⟩) :=
  ⟨hs.2, binpack_pos sorted B hB, fun bs m hbs =>
    ⟨(minBucketIndex_spec bs hbs).1, (minBucketIndex_spec bs hbs).2.1,
     (minBucketIndex_spec bs hbs).2.2, assign_eq bs m hbs⟩⟩

/-- Witness for the amended C2 at a concrete input. -/
theorem c2_binpack_greedy_amended_witness :
    sortSpec [⟨1, 3⟩] [⟨1, 3⟩] ∧ (1 : Int) ≤ 1 ∧
    (([⟨1, 3⟩] : List LineMeta).Pairwise (fun a b => b.size ≤ a.size) ∧
    binpack [⟨1, 3⟩] 1
      = some (([⟨1, 3⟩] : List LineMeta).foldl assign
          (List.replicate (1 : Int).toNat ⟨0, ∅⟩)) ∧
    (∀ (bs : List FileBucket) (m : LineMeta), bs ≠ [] →
      minBucketIndex bs < bs.length ∧
      (∀ j, j < bs.length →
        (bs.getD (minBucketIndex bs) dfltBucket).totalSize
          ≤ (bs.getD j dfltBucket).totalSize) ∧
      (∀ j, j < minBucketIndex bs →
        (bs.getD (minBucketIndex bs) dfltBucket).totalSize
          < (bs.getD j dfltBucket).totalSize) ∧
      assign bs m = bs.set (minBucketIndex bs)
        ⟨(bs.getD (minBucketIndex bs) dfltBucket).totalSize + m.size,
         insert m.lineNumber (bs.getD (minBucketIndex bs) dfltBucket).lineNums⟩)) :=
  ⟨by decide, by decide,
    c2_binpack_greedy_amended [⟨1, 3⟩] [⟨1, 3⟩] 1 (by decide) (by decide)⟩

/-- C3 counterexample: the partitioner invoked with bucket count 0 on an empty
meta sequence does not fail at all. -/
theorem c3_zero_buckets_counterexample :
    binpack [] 0 = some [] ∧ binpack [] 0 ≠ none := by
  decide

/-- C3 amended: there is no explicit bucket-count check.  A negative count
crashes `make` (modelled `none`); count 0 with records crashes on the first
bucket access (`none`); count 0 with no records silently succeeds with zero
buckets, and the write pass over zero buckets creates no output files. -/
theorem c3_invalid_bucket_amended (sorted : List LineMeta) (B : Int) (hB : B ≤ 0) :
    (B < 0 → binpack sorted B = none) ∧
    (B = 0 → sorted ≠ [] → binpack sorted B = none) ∧
    (B = 0 → sorted = [] → binpack sorted B = some []) ∧
    (∀ input : List Record, write input [] = some []) := by
  have hnil : ∀ (l : List Record) (ln : Int),
      ∃ ln', l.foldlM (loopStep (lineToBucket []) 0) (([] : List (List Record)), ln)
        = some ([], ln') := by
    intro l
    induction l with
    | nil => intro ln; exact ⟨ln, by simp⟩
    | cons r rest ih =>
      intro ln
      have hstep : loopStep (lineToBucket []) 0 (([] : List (List Record)), ln) r
          = some ([], (if ln = 0 then 1 else ln) + 1) := by
        by_cases h0 : ln = 0 <;>
          simp [loopStep, lineToBucket, lineToBucketAux, h0]
      simp only [List.foldlM_cons, hstep]
      have := ih ((if ln = 0 then 1 else ln) + 1)
      simpa using this
  refine ⟨?_, ?_, ?_, ?_⟩
  · intro h
    rw [binpack, if_pos h]
  · intro h0 hne
    rw [binpack, if_neg (by omega), if_pos h0, if_neg hne]
  · intro h0 hnl
    rw [binpack, if_neg (by omega), if_pos h0, if_pos hnl]
  · intro input
    obtain ⟨ln', h⟩ := hnil input 0
    show (input.foldlM (loopStep (lineToBucket []) ([] : List FileBucket).length)
      (List.replicate ([] : List FileBucket).length [], (0 : Int))).map Prod.fst = some []
    rw [show List.replicate ([] : List FileBucket).length ([] : List Record) = [] from rfl]
    rw [show ([] : List FileBucket).length = 0 from rfl]
    rw [h]
    rfl

/-- Witness for the amended C3 at bucket count 0 and an empty meta list. -/
theorem c3_invalid_bucket_amended_witness :
    (0 : Int) ≤ 0 ∧
    (((0 : Int) < 0 → binpack [] 0 = none) ∧
    ((0 : Int) = 0 → ([] : List LineMeta) ≠ [] → binpack [] 0 = none) ∧
    ((0 : Int) = 0 → ([] : List LineMeta) = [] → binpack [] 0 = some []) ∧
    (∀ input : List Record, write input [] = some [])) :=
  ⟨by decide, c3_invalid_bucket_amended [] 0 (by decide)⟩

/-- C4 counterexample: a record whose weight field does not parse is *not*
excluded from every bucket: the scan records it with weight 0 and the
partitioner assigns its ordinal to a bucket. -/
theorem c4_malformed_weight_counterexample :
    scan [["id", "name", "size"], ["1", "x", "oops"]] = some [⟨1, 0⟩] ∧
    (parseInt64 "oops").2 = false ∧
    binpack [⟨1, 0⟩] 1 = some [⟨0, {1}⟩] ∧
    ((1 : Int) ∈ ({1} : Finset Int)) := by
  decide

/-- C4 amended: a record whose weight field fails to parse (syntax error) is
still counted for ordinal purposes, gets weight 0 (the parse error is
discarded, with no diagnostic in the scan), participates in bucket assignment
like any other record — its ordinal lands in exactly one bucket — and the
remaining records are processed unaffected. -/
theorem c4_malformed_weight_amended (hdr : Record) (data : List Record) (k : Nat)
    (hk : k < data.length) (sorted : List LineMeta) (B : Int)
    (hbad : parseInt64 (field2 (data.getD k [])) = (0, false))
    (hs : sortSpec (scanAux 1 data) sorted) (hB : 1 ≤ B) :
    scan (hdr :: data) = some (scanAux 1 data) ∧
    (scanAux 1 data).length = data.length ∧
    (∀ j, j < data.length → (scanAux 1 data).getD j ⟨0, 0⟩
        = ⟨1 + (j : Int), (parseInt64 (field2 (data.getD j []))).1⟩) ∧
    (scanAux 1 data).getD k ⟨0, 0⟩ = ⟨1 + (k : Int), 0⟩ ∧
    ∃ bs, binpack sorted B = some bs ∧
      bs.countP (fun b => decide ((1 + (k : Int)) ∈ b.lineNums)) = 1 := by
  have hlen := scanAux_length data 1
  have hgetk := scanAux_getD data 1 k hk
  refine ⟨rfl, hlen, fun j hj => scanAux_getD data 1 j hj, ?_, ?_⟩
  · rw [hgetk, hbad]
  · refine ⟨_, binpack_pos sorted B hB, ?_⟩
    have hnd := scanAux_nodup data 1
    have hmem : (1 + (k : Int)) ∈ (scanAux 1 data).map LineMeta.lineNumber := by
      have hmm : (scanAux 1 data).getD k ⟨0, 0⟩ ∈ scanAux 1 data :=
        getD_mem _ k _ (by omega)
      have := List.mem_map_of_mem LineMeta.lineNumber hmm
      rw [hgetk] at this
      simpa using this
    rw [binpack_partition_count (scanAux 1 data) sorted B hs hnd hB (1 + (k : Int))]
    rw [if_pos hmem]

/-- Witness for the amended C4 at a concrete malformed input. -/
theorem c4_malformed_weight_amended_witness :
    (0 < [(["1", "x", "oops"] : Record), ["2", "y", "7"]].length) ∧
    parseInt64 (field2 ([(["1", "x", "oops"] : Record), ["2", "y", "7"]].getD 0 []))
      = (0, false) ∧
    sortSpec (scanAux 1 [(["1", "x", "oops"] : Record), ["2", "y", "7"]])
      [⟨2, 7⟩, ⟨1, 0⟩] ∧ (1 : Int) ≤ 1 ∧
    (scan (["id", "name", "size"] :: [(["1", "x", "oops"] : Record), ["2", "y", "7"]])
        = some (scanAux 1 [(["1", "x", "oops"] : Record), ["2", "y", "7"]]) ∧
    (scanAux 1 [(["1", "x", "oops"] : Record), ["2", "y", "7"]]).length
        = [(["1", "x", "oops"] : Record), ["2", "y", "7"]].length ∧
    (∀ j, j < [(["1", "x", "oops"] : Record), ["2", "y", "7"]].length →
      (scanAux 1 [(["1", "x", "oops"] : Record), ["2", "y", "7"]]).getD j ⟨0, 0⟩
        = ⟨1 + (j : Int), (parseInt64 (field2
            ([(["1", "x", "oops"] : Record), ["2", "y", "7"]].getD j []))).1⟩) ∧
    (scanAux 1 [(["1", "x", "oops"] : Record), ["2", "y", "7"]]).getD 0 ⟨0, 0⟩
        = ⟨1 + (0 : Int), 0⟩ ∧
    ∃ bs, binpack [⟨2, 7⟩, ⟨1, 0⟩] 1 = some bs ∧
      bs.countP (fun b => decide ((1 + (0 : Int)) ∈ b.lineNums)) = 1) :=
  ⟨by decide, by decide, by decide, by decide,
    c4_malformed_weight_amended ["id", "name", "size"]
      [["1", "x", "oops"], ["2", "y", "7"]] 0 (by decide) [⟨2, 7⟩, ⟨1, 0⟩] 1
      (by decide) (by decide) (by decide)⟩

/-- C5: for any admissible sort of the metas and any bucket count at least
one, the bucket totals sum to the total weight of the metas. -/
theorem c5_total_weight_conserved (metas sorted : List LineMeta) (B : Int)
    (hs : sortSpec metas sorted) (hB : 1 ≤ B) :
    ∃ bs, binpack sorted B = some bs ∧
      (bs.map FileBucket.totalSize).sum = (metas.map LineMeta.size).sum := by
  refine ⟨_, binpack_pos sorted B hB, ?_⟩
  rw [greedy_sum sorted _ (replicate_bucket_ne_nil B hB)]
  have hinit : ((List.replicate B.toNat (⟨0, ∅⟩ : FileBucket)).map
      FileBucket.totalSize).sum = 0 := by
    simp [List.map_replicate]
  rw [hinit]
  have hperm : (sorted.map LineMeta.size).Perm (metas.map LineMeta.size) := hs.1.map _
  rw [hperm.sum_eq]
  ring

/-- Witness for C5 at a concrete input. -/
theorem c5_total_weight_conserved_witness :
    sortSpec [⟨1, 5⟩, ⟨2, 7⟩] [⟨2, 7⟩, ⟨1, 5⟩] ∧ (1 : Int) ≤ 1 ∧
    ∃ bs, binpack [⟨2, 7⟩, ⟨1, 5⟩] 1 = some bs ∧
      (bs.map FileBucket.totalSize).sum
        = (([⟨1, 5⟩, ⟨2, 7⟩] : List LineMeta).map LineMeta.size).sum :=
  ⟨by decide, by decide,
    c5_total_weight_conserved [⟨1, 5⟩, ⟨2, 7⟩] [⟨2, 7⟩, ⟨1, 5⟩] 1 (by decide) (by decide)⟩

/-- C6: with pairwise distinct ordinals, after partitioning each ordinal of
the meta sequence lies in exactly one bucket's member set and every other
value in none. -/
theorem c6_partition_exactly_one (metas sorted : List LineMeta) (B : Int)
    (hs : sortSpec metas sorted) (hnd : (metas.map LineMeta.lineNumber).Nodup)
    (hB : 1 ≤ B) :
    ∃ bs, binpack sorted B = some bs ∧
      ∀ n : Int, bs.countP (fun b => decide (n ∈ b.lineNums))
        = if n ∈ metas.map LineMeta.lineNumber then 1 else 0 :=
  ⟨_, binpack_pos sorted B hB,
    fun n => binpack_partition_count metas sorted B hs hnd hB n⟩

/-- Witness for C6 at a concrete input. -/
theorem c6_partition_exactly_one_witness :
    sortSpec [⟨1, 5⟩, ⟨2, 7⟩] [⟨2, 7⟩, ⟨1, 5⟩] ∧
    (([⟨1, 5⟩, ⟨2, 7⟩] : List LineMeta).map LineMeta.lineNumber).Nodup ∧
    (1 : Int) ≤ 2 ∧
    ∃ bs, binpack [⟨2, 7⟩, ⟨1, 5⟩] 2 = some bs ∧
      ∀ n : Int, bs.countP (fun b => decide (n ∈ b.lineNums))
        = if n ∈ ([⟨1, 5⟩, ⟨2, 7⟩] : List LineMeta).map LineMeta.lineNumber
          then 1 else 0 :=
  ⟨by decide, by decide, by decide,
    c6_partition_exactly_one [⟨1, 5⟩, ⟨2, 7⟩] [⟨2, 7⟩, ⟨1, 5⟩] 2
      (by decide) (by decide) (by decide)⟩

/-- C7: on input header + one record with one bucket, the header is broadcast
to the output but then additionally routed as the record of ordinal 1, so it
appears twice in that output rather than exactly once. -/
theorem c7_header_duplicated :
    scan [["id", "name", "size"], ["1", "x", "5"]] = some [⟨1, 5⟩] ∧
    sortSpec [⟨1, 5⟩] [⟨1, 5⟩] ∧
    binpack [⟨1, 5⟩] 1 = some [⟨5, {1}⟩] ∧
    write [["id", "name", "size"], ["1", "x", "5"]] [⟨5, {1}⟩]
      = some [[["id", "name", "size"], ["id", "name", "size"]]] ∧
    (([[["id", "name", "size"], ["id", "name", "size"]]] :
        List (List Record)).getD 0 []).count ["id", "name", "size"] = 2 := by
  decide

/-- C8: during the write pass a record whose `lineNum` is absent from the
index is skipped (no file changes, processing continues), one mapped to an
in-range bucket is appended there, and one mapped out of range aborts the
whole remaining pass. -/
theorem c8_route_behavior (ltb : Int → Option Nat) (nch : Nat)
    (files : List (List Record)) (ln : Int) (r : Record) (hln : ln ≠ 0) :
    (ltb ln = none → loopStep ltb nch (files, ln) r = some (files, ln + 1)) ∧
    (∀ b, ltb ln = some b → b < nch →
      loopStep ltb nch (files, ln) r = some (appendAt files b r, ln + 1)) ∧
    (∀ b, ltb ln = some b → ¬ b < nch →
      loopStep ltb nch (files, ln) r = none ∧
      ∀ rest : List Record,
        (r :: rest).foldlM (loopStep ltb nch) (files, ln) = none) := by
  refine ⟨?_, ?_, ?_⟩
  · intro h
    simp [loopStep, hln, h]
  · intro b h hb
    simp [loopStep, hln, h, hb]
  · intro b h hb
    have hstep : loopStep ltb nch (files, ln) r = none := by
      simp [loopStep, hln, h, hb]
    exact ⟨hstep, fun rest => by simp [List.foldlM_cons, hstep]⟩

/-- Witness for C8 at a concrete routing state. -/
theorem c8_route_behavior_witness :
    ((1 : Int) ≠ 0) ∧
    (((fun _ : Int => some 5) 1 = none →
      loopStep (fun _ : Int => some 5) 3 ([], 1) ["x"] = some ([], 1 + 1)) ∧
    (∀ b, (fun _ : Int => some 5) 1 = some b → b < 3 →
      loopStep (fun _ : Int => some 5) 3 ([], 1) ["x"]
        = some (appendAt [] b ["x"], 1 + 1)) ∧
    (∀ b, (fun _ : Int => some 5) 1 = some b → ¬ b < 3 →
      loopStep (fun _ : Int => some 5) 3 ([], 1) ["x"] = none ∧
      ∀ rest : List Record,
        (["x"] :: rest).foldlM (loopStep (fun _ : Int => some 5) 3) ([], 1) = none)) :=
  ⟨by decide, c8_route_behavior (fun _ : Int => some 5) 3 [] 1 ["x"] (by decide)⟩

/-- C9: with the tie-breaking fixed (one sorted sequence), any two complete
concurrent runs of the write pass — under arbitrary interleavings — produce
the same files, equal to the sequential write, hence byte-identical named
outputs. -/
theorem c9_write_deterministic (input : List Record) (metas sorted : List LineMeta)
    (B : Int) (buckets : List FileBucket) (pfx : String) (s1 s2 : CState)
    (hscan : scan input = some metas) (hs : sortSpec metas sorted)
    (hbp : binpack sorted B = some buckets)
    (h1 : CReach (lineToBucket buckets) buckets.length
      (initState input buckets.length) s1)
    (hc1 : CComplete s1)
    (h2 : CReach (lineToBucket buckets) buckets.length
      (initState input buckets.length) s2)
    (hc2 : CComplete s2) :
    s1.files = s2.files ∧ namedOutputs pfx s1.files = namedOutputs pfx s2.files ∧
    write input buckets = some s1.files := by
  have e1 := crun_files (lineToBucket buckets) buckets.length input s1 h1 hc1
  have e2 := crun_files (lineToBucket buckets) buckets.length input s2 h2 hc2
  have hfe : s1.files = s2.files := by
    rw [e1] at e2
    exact Option.some.inj e2
  refine ⟨hfe, by rw [hfe], ?_⟩
  rw [write]
  exact e1

/-- Witness for C9: a concrete complete run on a header-only input. -/
theorem c9_write_deterministic_witness :
    scan [["a", "b", "c"]] = some [] ∧ sortSpec [] [] ∧
    binpack [] 1 = some [⟨0, ∅⟩] ∧
    CReach (lineToBucket [⟨0, ∅⟩]) 1 (initState [["a", "b", "c"]] 1)
      ⟨[], 2, [[]], [[["a", "b", "c"]]]⟩ ∧
    CComplete ⟨[], 2, [[]], [[["a", "b", "c"]]]⟩ ∧
    ((⟨[], 2, [[]], [[["a", "b", "c"]]]⟩ : CState).files
        = (⟨[], 2, [[]], [[["a", "b", "c"]]]⟩ : CState).files ∧
      namedOutputs "out_" (⟨[], 2, [[]], [[["a", "b", "c"]]]⟩ : CState).files
        = namedOutputs "out_" (⟨[], 2, [[]], [[["a", "b", "c"]]]⟩ : CState).files ∧
      write [["a", "b", "c"]] [⟨0, ∅⟩]
        = some (⟨[], 2, [[]], [[["a", "b", "c"]]]⟩ : CState).files) := by
  have hstep : CStep (lineToBucket [⟨0, ∅⟩]) 1 (initState [["a", "b", "c"]] 1)
      ⟨[], 2, [[]], [[["a", "b", "c"]]]⟩ :=
    CStep.produce (initState [["a", "b", "c"]] 1) ⟨[], 2, [[]], [[["a", "b", "c"]]]⟩
      ["a", "b", "c"] [] rfl (by decide)
  have hr : CReach (lineToBucket [⟨0, ∅⟩]) 1 (initState [["a", "b", "c"]] 1)
      ⟨[], 2, [[]], [[["a", "b", "c"]]]⟩ :=
    Relation.ReflTransGen.single hstep
  have hcomp : CComplete ⟨[], 2, [[]], [[["a", "b", "c"]]]⟩ := ⟨rfl, by simp⟩
  exact ⟨by decide, by decide, by decide, hr, hcomp,
    c9_write_deterministic [["a", "b", "c"]] [] [] 1 [⟨0, ∅⟩] "out_"
      ⟨[], 2, [[]], [[["a", "b", "c"]]]⟩ ⟨[], 2, [[]], [[["a", "b", "c"]]]⟩
      (by decide) (by decide) (by decide) hr hcomp hr hcomp⟩

/-- C10: every value of the ordinal-to-bucket index built from the
partitioner's buckets is a valid bucket index, and consequently the write
pass never reaches its fatal out-of-range abort. -/
theorem c10_index_in_range (sorted : List LineMeta) (B : Int)
    (buckets : List FileBucket) (hbp : binpack sorted B = some buckets) :
    (∀ n i, lineToBucket buckets n = some i → i < buckets.length) ∧
    (∀ input, (write input buckets).isSome) :=
  ⟨fun n i h => lineToBucket_lt buckets n i h, fun input => write_isSome input buckets⟩

/-- Witness for C10 at a concrete bucket list. -/
theorem c10_index_in_range_witness :
    binpack [⟨1, 5⟩] 1 = some [⟨5, {1}⟩] ∧
    ((∀ n i, lineToBucket [⟨5, {1}⟩] n = some i → i < ([⟨5, {1}⟩] :
        List FileBucket).length) ∧
    (∀ input, (write input [⟨5, {1}⟩]).isSome)) :=
  ⟨by decide, c10_index_in_range [⟨1, 5⟩] 1 [⟨5, {1}⟩] (by decide)⟩
